import Mathlib

/-!
# websocket-bench, `util/counter.go`: the named-counter registry

A shallow embedding of `util.Counter` and a verification of its behaviour.

* A Go `string` is a Lean `String`, `strings.HasPrefix` is the prefix test on the
  character sequence (on UTF-8 text the byte prefixes that are strings are the
  character prefixes).
* An `int64` is an `Int` kept in the signed 64-bit range by `int64`, which wraps
  the way Go's `+=` does.
* A `map[string]int64` object is an association list (`StatsMap`); Go maps are
  reference values, so the objects live in a `Heap` and `Counter.stats`, the local
  `original` and the local `snapshot` hold references (heap indices).
* The two channels are unbuffered: a send completes exactly when the owner
  goroutine receives the record.  The goroutine of `start` is the function `start`
  fed with the records in the order the channel delivers them.
-/

namespace util

/-- The record type `countRecord` (counter.go, lines 8-12). -/
structure countRecord where
  name : String
  control : String
  value : Int
deriving DecidableEq, Repr

/-- The contents of one `map[string]int64` object: its entries, in the order `range`
visits them. A Go map holds each key once (`keysNodup`). -/
abbrev StatsMap := List (String × Int)

/-- Wrap an integer into the signed 64-bit range (Go `int64` arithmetic). -/
def int64 (x : Int) : Int := (x + 2 ^ 63) % 2 ^ 64 - 2 ^ 63

/-- The `v, ok := m[k]` of Go: the value stored under `k`, if any. -/
def mapFind : StatsMap → String → Option Int
  | [], _ => none
  | (k1, v1) :: m, k => if k1 = k then some v1 else mapFind m k

/-- The `m[k]` of Go as an expression: the stored value, or the zero value when absent. -/
def mapGet (m : StatsMap) (k : String) : Int :=
  match mapFind m k with
  | some v => v
  | none => 0

/-- The `m[k] = v` of Go: overwrite the entry of `k`, or add one. -/
def mapSet : StatsMap → String → Int → StatsMap
  | [], k, v => [(k, v)]
  | (k1, v1) :: m, k, v => if k1 = k then (k, v) :: m else (k1, v1) :: mapSet m k v

/-- The `strings.HasPrefix(s, p)` of Go. -/
def HasPrefix (s p : String) : Bool := p.data.isPrefixOf s.data

/-- The map objects allocated so far; a reference is an index into the list. -/
abbrev Heap := List StatsMap

/-- The `make(map[string]int64)` of Go: allocate a fresh empty map, return its reference. -/
def Heap.make (h : Heap) : Heap × Nat := (h ++ [[]], h.length)

/-- Read the map object behind a reference. -/
def Heap.read (h : Heap) (a : Nat) : StatsMap := h.getD a []

/-- Replace the map object behind a reference. -/
def Heap.write (h : Heap) (a : Nat) (m : StatsMap) : Heap := h.set a m

/-- An unbuffered channel: it holds no values, its only state is whether `close`
has been called on it. -/
structure Chan where
  closed : Bool
deriving DecidableEq, Repr

/-- The struct `Counter` (lines 16-21); `stats` is the reference held in the field. -/
structure Counter where
  stats : Nat
  recordChannel : Chan
  resultChannel : Chan
  stopped : Bool
deriving DecidableEq, Repr

/-- The program state: the counter, the heap of map objects, the references the
owner has sent on `resultChannel` (oldest first) and the lines given to `log.Println`. -/
structure State where
  c : Counter
  heap : Heap
  results : List Nat
  log : List String
deriving DecidableEq, Repr

/-- The live counters: the map object `c.stats` refers to. -/
def State.statsMap (s : State) : StatsMap := s.heap.read s.c.stats

/-- The text `fmt.Sprintln` builds from string operands: joined by spaces, newline added. -/
def Sprintln (args : List String) : String := " ".intercalate args ++ "\n"

/-- The records sent by `Stat` (line 37). -/
def statRecord (name : String) (value : Int) : countRecord := ⟨name, "", value⟩

/-- The record sent by `Snapshot` (line 44). -/
def snapshotRecord : countRecord := ⟨"", "snapshot", 0⟩

/-- The record sent by `Clear` (line 53). -/
def clearRecord (pfx : String) : countRecord := ⟨pfx, "clear", 0⟩

/-- The record sent by `Stop` (line 59). -/
def stopRecord : countRecord := ⟨"", "stop", 0⟩

/-- The loop of lines 74-78: copy into the map at `dst` (the new `c.stats`) every
entry of `original` whose key does not start with `name`. Go fixes no order for
`range`; each key is visited once, so the order does not show in the result. -/
def clearLoop (name : String) (dst : Nat) (original : StatsMap) (h : Heap) : Heap :=
  original.foldl
    (fun h kv => if !HasPrefix kv.1 name then h.write dst (mapSet (h.read dst) kv.1 kv.2) else h) h

/-- The loop of lines 84-86: copy every entry of the live map into the map at `snapshot`. -/
def snapshotLoop (snapshot : Nat) (stats : StatsMap) (h : Heap) : Heap :=
  stats.foldl (fun h kv => h.write snapshot (mapSet (h.read snapshot) kv.1 kv.2)) h

/-- How one iteration of the owner loop ends: at the next receive, or by `return`. -/
inductive Flow where
  | next (s : State)
  | ret (s : State)
deriving DecidableEq, Repr

/-- The body of the owner loop (lines 68-93) for one received record. -/
def startBody (s : State) (record : countRecord) : Flow :=
  if record.control ≠ "" then
    if record.control = "clear" then
      let original := s.c.stats
      let (h, a) := s.heap.make
      if record.name ≠ "" then
        .next { s with c := { s.c with stats := a }, heap := clearLoop record.name a (h.read original) h }
      else
        .next { s with c := { s.c with stats := a }, heap := h }
    else if record.control = "stop" then
      .ret s
    else if record.control = "snapshot" then
      let (h, snapshot) := s.heap.make
      .next { s with heap := snapshotLoop snapshot (h.read s.c.stats) h,
                     results := s.results ++ [snapshot] }
    else
      .next { s with log := s.log ++ [Sprintln ["Unknown control command: ", record.name]] }
  else
    .next { s with heap := Heap.write s.heap s.c.stats (mapSet s.statsMap record.name
              (int64 (mapGet s.statsMap record.name + record.value))) }

/-- The two deferred calls of lines 64-65, run when the goroutine returns. -/
def deferred (s : State) : State :=
  { s with c := { s.c with resultChannel := ⟨true⟩, recordChannel := ⟨true⟩ } }

/-- The goroutine of `start` (lines 63-95) receiving the given records in order: it
runs the body on each; on `return` it runs the deferred closes and receives nothing
more; when the list is exhausted it is waiting at the receive. -/
def start : State → List countRecord → State
  | s, [] => s
  | s, record :: rest =>
    match startBody s record with
    | .next s1 => start s1 rest
    | .ret s1 => deferred s1

/-- `NewCounter` (lines 23-31): an empty map, two open channels, `stopped` at its zero
value, and the goroutine waiting at its first receive. -/
def NewCounter : State :=
  let (h, a) := Heap.make []
  { c := { stats := a, recordChannel := ⟨false⟩, resultChannel := ⟨false⟩, stopped := false },
    heap := h, results := [], log := [] }

/-- How a call of a public method ends. -/
inductive Outcome (α : Type) where
  | returns (a : α) (s : State)
  | panics (msg : String)
  | blocks
deriving DecidableEq, Repr

/-- The send `c.recordChannel <- record`: a panic on a closed channel; otherwise the
owner receives the record and runs its loop body on it. -/
def send (s : State) (record : countRecord) : Outcome Unit :=
  if s.c.recordChannel.closed then .panics "send on closed channel"
  else .returns () (start s [record])

/-- The receive `<-c.resultChannel` of a caller whose request was sent when `sent`
results had been delivered: the reference the owner sent in answer; the zero value
`nil` when the channel is closed; otherwise the caller waits. -/
def recv (s : State) (sent : Nat) : Outcome (Option Nat) :=
  match s.results.get? sent with
  | some a => .returns (some a) s
  | none => if s.c.resultChannel.closed then .returns none s else .blocks

/-- `Counter.Stat` (lines 35-39). -/
def Stat (s : State) (name : String) (value : Int) : Outcome Unit :=
  if !s.c.stopped then send s (statRecord name value) else .returns () s

/-- `Counter.Snapshot` (lines 42-48); `none` is the `nil` map. -/
def Snapshot (s : State) : Outcome (Option Nat) :=
  if !s.c.stopped then
    match send s snapshotRecord with
    | .returns _ s1 => recv s1 s.results.length
    | .panics msg => .panics msg
    | .blocks => .blocks
  else .returns none s

/-- `Counter.Clear` (lines 51-55). -/
def Clear (s : State) (pfx : String) : Outcome Unit :=
  if !s.c.stopped then send s (clearRecord pfx) else .returns () s

/-- `Counter.Stop` (lines 58-60). -/
def Stop (s : State) : Outcome Unit := send s stopRecord

/-- A list represents a Go map when no key occurs twice. -/
def keysNodup (m : StatsMap) : Prop := (m.map Prod.fst).Nodup

instance (m : StatsMap) : Decidable (keysNodup m) := by unfold keysNodup; infer_instance

/-- A state is well formed when `c.stats` refers to an allocated map object and
that object is a map. Every state the program reaches is well formed. -/
def State.wf (s : State) : Prop := s.c.stats < s.heap.length ∧ keysNodup s.statsMap

instance (s : State) : Decidable s.wf := by unfold State.wf; infer_instance

/-- The sum of a list of deltas in `int64` arithmetic, added in order from 0. -/
def int64Sum (ds : List Int) : Int := ds.foldl (fun acc d => int64 (acc + d)) 0

/-- The state an iteration ends in. -/
def Flow.state : Flow → State
  | .next s => s
  | .ret s => s

/-- The pure content of both copy loops: the entries whose key passes `keep` are stored
one by one into the accumulated map. -/
def copyKeep (keep : String → Bool) (acc m : StatsMap) : StatsMap :=
  m.foldl (fun acc kv => if keep kv.1 then mapSet acc kv.1 kv.2 else acc) acc

/-- The effect of one received record on the live map, as a function of the map alone. -/
def applyRecord (m : StatsMap) (r : countRecord) : StatsMap :=
  if r.control = "" then mapSet m r.name (int64 (mapGet m r.name + r.value))
  else if r.control = "clear" then m.filter (fun kv => !HasPrefix kv.1 r.name)
  else m

/-- The state a call leaves behind when it returns; none when it panics or blocks. -/
def Outcome.state {α : Type} : Outcome α → Option State
  | .returns _ s => some s
  | .panics _ => none
  | .blocks => none

/-- A call of one of the four public methods of `Counter`, with its arguments. -/
inductive Call where
  | stat (name : String) (value : Int)
  | snapshot
  | clear (pfx : String)
  | stop
deriving DecidableEq, Repr

/-- Execute one public call: the state it returns in, if it returns. -/
def exec (s : State) : Call → Option State
  | .stat name value => (Stat s name value).state
  | .snapshot => (Snapshot s).state
  | .clear pfx => (Clear s pfx).state
  | .stop => (Stop s).state

/-- Execute public calls one after the other, as long as each returns. -/
def runCalls : State → List Call → Option State
  | s, [] => some s
  | s, c :: cs =>
    match exec s c with
    | some s1 => runCalls s1 cs
    | none => none

/-- The states the program can be in: the one `NewCounter` returns, and from there
any state a returning public call or a run of the owner loop on further records
leads to. -/
inductive Reachable : State → Prop where
  | newCounter : Reachable NewCounter
  | call (s s1 : State) (c : Call) : Reachable s → exec s c = some s1 → Reachable s1
  | owner (s : State) (rs : List countRecord) : Reachable s → Reachable (start s rs)

/-! ## Maps and the heap -/

theorem mapFind_mapSet (m : StatsMap) (k k1 : String) (v : Int) :
    mapFind (mapSet m k v) k1 = if k = k1 then some v else mapFind m k1 := by
  induction m with
  | nil => simp [mapSet, mapFind]
  | cons e m ih =>
    obtain ⟨k2, v2⟩ := e
    by_cases h : k2 = k
    · subst h; by_cases h1 : k2 = k1 <;> simp [mapSet, mapFind, h1]
    · by_cases h1 : k2 = k1
      · subst h1
        have : ¬ k = k2 := fun e => h e.symm
        simp [mapSet, mapFind, h, this]
      · simp [mapSet, mapFind, h, h1, ih]

theorem mapFind_eq_none (m : StatsMap) (k : String) :
    mapFind m k = none ↔ k ∉ m.map Prod.fst := by
  induction m with
  | nil => simp [mapFind]
  | cons e m ih =>
    obtain ⟨k2, v2⟩ := e
    by_cases h : k2 = k
    · simp [mapFind, h]
    · have : ¬ k = k2 := fun e => h e.symm
      simp [mapFind, h, ih, this]

theorem mapSet_of_not_mem (m : StatsMap) (k : String) (v : Int) (h : k ∉ m.map Prod.fst) :
    mapSet m k v = m ++ [(k, v)] := by
  induction m with
  | nil => simp [mapSet]
  | cons e m ih =>
    obtain ⟨k2, v2⟩ := e
    simp only [List.map_cons, List.mem_cons, not_or] at h
    have h1 : ¬ k2 = k := fun e => h.1 e.symm
    simp [mapSet, h1, ih h.2]

theorem keys_mapSet_of_mem (m : StatsMap) (k : String) (v : Int) (h : k ∈ m.map Prod.fst) :
    (mapSet m k v).map Prod.fst = m.map Prod.fst := by
  induction m with
  | nil => simp at h
  | cons e m ih =>
    obtain ⟨k2, v2⟩ := e
    by_cases h1 : k2 = k
    · simp [mapSet, h1]
    · have : k ∈ m.map Prod.fst := by
        simp only [List.map_cons, List.mem_cons] at h
        rcases h with h | h
        · exact absurd h.symm h1
        · exact h
      simp [mapSet, h1, ih this]

theorem keysNodup_mapSet (m : StatsMap) (k : String) (v : Int) (h : keysNodup m) :
    keysNodup (mapSet m k v) := by
  unfold keysNodup at *
  by_cases hk : k ∈ m.map Prod.fst
  · rw [keys_mapSet_of_mem m k v hk]; exact h
  · rw [mapSet_of_not_mem m k v hk]
    simp only [List.map_append, List.map_cons, List.map_nil]
    exact List.Nodup.append h (List.nodup_singleton k) (by
      intro x hx hx1
      simp only [List.mem_singleton] at hx1
      exact hk (hx1 ▸ hx))

theorem Heap.read_make (h : Heap) (a : Nat) : h.make.1.read a = h.read a := by
  unfold Heap.make Heap.read
  rcases Nat.lt_trichotomy a h.length with hlt | heq | hgt
  · simp [List.getD_eq_getElem?_getD, List.getElem?_append_left hlt]
  · subst heq; simp [List.getD_eq_getElem?_getD]
  · have h1 : (h ++ [[]]).length ≤ a := by simp; omega
    have h2 : h.length ≤ a := by omega
    simp [List.getD_eq_getElem?_getD, List.getElem?_eq_none h1, List.getElem?_eq_none h2]

theorem Heap.read_fresh (h : Heap) : h.read h.length = [] := by
  simp [Heap.read, List.getD_eq_getElem?_getD]

theorem Heap.length_write (h : Heap) (a : Nat) (m : StatsMap) :
    (h.write a m).length = h.length := by
  simp [Heap.write]

theorem Heap.read_write_same (h : Heap) (a : Nat) (m : StatsMap) (ha : a < h.length) :
    (h.write a m).read a = m := by
  simp [Heap.write, Heap.read, List.getD_eq_getElem?_getD, List.getElem?_set, ha]

theorem Heap.read_write_other (h : Heap) (a b : Nat) (m : StatsMap) (hab : a ≠ b) :
    (h.write a m).read b = h.read b := by
  simp [Heap.write, Heap.read, List.getD_eq_getElem?_getD, List.getElem?_set, hab]

theorem Heap.write_write (h : Heap) (a : Nat) (m1 m2 : StatsMap) :
    (h.write a m1).write a m2 = h.write a m2 := by
  simp [Heap.write]

theorem Heap.write_read (h : Heap) (a : Nat) : h.write a (h.read a) = h := by
  unfold Heap.write Heap.read
  apply List.ext_getElem?
  intro n
  by_cases hn : a = n
  · subst hn
    by_cases ha : a < h.length
    · simp [List.getElem?_set, ha, List.getD_eq_getElem?_getD]
    · simp [List.getElem?_set, ha, List.getElem?_eq_none (Nat.le_of_not_lt ha)]
  · simp [List.getElem?_set, hn]

theorem copyKeep_eq (keep : String → Bool) (m acc : StatsMap) (h : keysNodup (acc ++ m)) :
    copyKeep keep acc m = acc ++ m.filter (fun kv => keep kv.1) := by
  induction m generalizing acc with
  | nil => simp [copyKeep]
  | cons e m ih =>
    have hsub : keysNodup (acc ++ m) := by
      unfold keysNodup at *
      refine List.Nodup.sublist (List.Sublist.map _ ?_) h
      exact List.Sublist.append (List.Sublist.refl acc) (List.sublist_cons_self e m)
    by_cases hk : keep e.1 = true
    · have hnot : e.1 ∉ acc.map Prod.fst := by
        unfold keysNodup at h
        simp only [List.map_append, List.map_cons] at h
        have := (List.nodup_append.mp h).2.2
        intro hmem
        exact this hmem (List.mem_cons_self _ _)
      have hstep : copyKeep keep acc (e :: m) = copyKeep keep (acc ++ [e]) m := by
        simp [copyKeep, hk, mapSet_of_not_mem acc e.1 e.2 hnot]
      rw [hstep, ih (acc ++ [e]) (by simpa using h)]
      simp [hk]
    · have hstep : copyKeep keep acc (e :: m) = copyKeep keep acc m := by
        simp [copyKeep, hk]
      rw [hstep, ih acc hsub]
      simp [hk]

theorem clearLoop_eq (name : String) (dst : Nat) (original : StatsMap) (h : Heap)
    (hd : dst < h.length) :
    clearLoop name dst original h
      = h.write dst (copyKeep (fun k => !HasPrefix k name) (h.read dst) original) := by
  induction original generalizing h with
  | nil => simp [clearLoop, copyKeep, Heap.write_read]
  | cons e m ih =>
    by_cases hk : HasPrefix e.1 name = true
    · have := ih h hd
      simp only [clearLoop, copyKeep] at this ⊢
      simpa [hk] using this
    · have := ih (h.write dst (mapSet (h.read dst) e.1 e.2)) (by simpa [Heap.length_write] using hd)
      simp only [clearLoop, copyKeep] at this ⊢
      rw [Heap.read_write_same _ _ _ hd, Heap.write_write] at this
      simp only [Bool.not_eq_true] at hk
      simpa [hk] using this

theorem snapshotLoop_eq (snapshot : Nat) (stats : StatsMap) (h : Heap)
    (hd : snapshot < h.length) :
    snapshotLoop snapshot stats h
      = h.write snapshot (copyKeep (fun _ => true) (h.read snapshot) stats) := by
  induction stats generalizing h with
  | nil => simp [snapshotLoop, copyKeep, Heap.write_read]
  | cons e m ih =>
    have := ih (h.write snapshot (mapSet (h.read snapshot) e.1 e.2))
      (by simpa [Heap.length_write] using hd)
    simp only [snapshotLoop, copyKeep] at this ⊢
    rw [Heap.read_write_same _ _ _ hd, Heap.write_write] at this
    simpa using this

/-! ## One iteration of the owner loop -/

theorem HasPrefix_empty (k : String) : HasPrefix k "" = true := by
  simp [HasPrefix]

theorem startBody_stat (s : State) (r : countRecord) (h : r.control = "") :
    startBody s r = .next { s with heap := Heap.write s.heap s.c.stats (mapSet s.statsMap r.name
      (int64 (mapGet s.statsMap r.name + r.value))) } := by
  simp [startBody, h]

theorem startBody_stop (s : State) (r : countRecord) (h : r.control = "stop") :
    startBody s r = .ret s := by
  simp [startBody, h]

theorem startBody_unknown (s : State) (r : countRecord) (h0 : r.control ≠ "")
    (h1 : r.control ≠ "clear") (h2 : r.control ≠ "stop") (h3 : r.control ≠ "snapshot") :
    startBody s r
      = .next { s with log := s.log ++ [Sprintln ["Unknown control command: ", r.name]] } := by
  simp [startBody, h0, h1, h2, h3]

theorem startBody_snapshot (s : State) (r : countRecord) (h : r.control = "snapshot")
    (hwf : s.wf) :
    startBody s r = .next { s with heap := s.heap ++ [s.statsMap],
                                   results := s.results ++ [s.heap.length] } := by
  have hlen : s.heap.length < (s.heap ++ [[]]).length := by simp
  have hread : Heap.read (s.heap ++ [[]]) s.c.stats = s.statsMap := Heap.read_make s.heap _
  have hfresh : Heap.read (s.heap ++ [[]]) s.heap.length = [] := by
    have := Heap.read_make s.heap s.heap.length
    rw [Heap.read_fresh] at this
    exact this
  have hcopy : copyKeep (fun _ => true) [] s.statsMap = s.statsMap := by
    have := copyKeep_eq (fun _ => true) s.statsMap [] (by simpa using hwf.2)
    simpa using this
  have hloop := snapshotLoop_eq s.heap.length s.statsMap (s.heap ++ [[]]) hlen
  rw [hfresh, hcopy] at hloop
  have hw : Heap.write (s.heap ++ [[]]) s.heap.length s.statsMap = s.heap ++ [s.statsMap] := by
    simp [Heap.write]
  simp [startBody, h, Heap.make, hread, hloop, hw]

theorem startBody_clear (s : State) (r : countRecord) (h : r.control = "clear")
    (hwf : s.wf) :
    startBody s r = .next { s with
      c := { s.c with stats := s.heap.length },
      heap := s.heap ++ [s.statsMap.filter (fun kv => !HasPrefix kv.1 r.name)] } := by
  have hlen : s.heap.length < (s.heap ++ [[]]).length := by simp
  have hread : Heap.read (s.heap ++ [[]]) s.c.stats = s.statsMap := Heap.read_make s.heap _
  have hfresh : Heap.read (s.heap ++ [[]]) s.heap.length = [] := by
    have := Heap.read_make s.heap s.heap.length
    rw [Heap.read_fresh] at this
    exact this
  by_cases hn : r.name = ""
  · have hf : s.statsMap.filter (fun kv => !HasPrefix kv.1 r.name) = [] := by
      simp [hn, HasPrefix_empty]
    rw [hf]
    simp [startBody, h, Heap.make, hn]
  · have hcopy := copyKeep_eq (fun k => !HasPrefix k r.name) s.statsMap []
      (by simpa using hwf.2)
    have hloop := clearLoop_eq r.name s.heap.length s.statsMap (s.heap ++ [[]]) hlen
    rw [hfresh, hcopy] at hloop
    have hw : ∀ m : StatsMap, Heap.write (s.heap ++ [[]]) s.heap.length m = s.heap ++ [m] := by
      intro m; simp [Heap.write]
    rw [hw] at hloop
    simp [startBody, h, Heap.make, hn, hread, hloop]

theorem keysNodup_filter (m : StatsMap) (p : String × Int → Bool) (h : keysNodup m) :
    keysNodup (m.filter p) := by
  unfold keysNodup at *
  exact List.Nodup.sublist (List.Sublist.map _ (List.filter_sublist m)) h

theorem keysNodup_applyRecord (m : StatsMap) (r : countRecord) (h : keysNodup m) :
    keysNodup (applyRecord m r) := by
  unfold applyRecord
  split_ifs
  · exact keysNodup_mapSet _ _ _ h
  · exact keysNodup_filter _ _ h
  · exact h

theorem statsMap_append (s : State) (m : StatsMap) (c : Counter) (rs : List Nat)
    (lg : List String) (hc : c.stats = s.heap.length) :
    State.statsMap { c := c, heap := s.heap ++ [m], results := rs, log := lg } = m := by
  simp [State.statsMap, Heap.read, hc, List.getD_eq_getElem?_getD]

theorem read_append_of_lt (h : Heap) (m : StatsMap) (a : Nat) (ha : a < h.length) :
    Heap.read (h ++ [m]) a = h.read a := by
  simp [Heap.read, List.getD_eq_getElem?_getD, List.getElem?_append_left ha]

/-- Everything one iteration does to a well-formed state. -/
theorem startBody_spec (s : State) (r : countRecord) (hwf : s.wf) :
    (startBody s r).state.wf
    ∧ (startBody s r).state.statsMap = applyRecord s.statsMap r
    ∧ s.heap.length ≤ (startBody s r).state.heap.length
    ∧ ((startBody s r).state.c.stats = s.c.stats
        ∨ (startBody s r).state.c.stats = s.heap.length)
    ∧ ∀ a, a < s.heap.length → a ≠ s.c.stats →
        (startBody s r).state.heap.read a = s.heap.read a := by
  by_cases h0 : r.control = ""
  · rw [startBody_stat s r h0]
    have hsm : State.statsMap { s with heap := Heap.write s.heap s.c.stats (mapSet s.statsMap r.name
        (int64 (mapGet s.statsMap r.name + r.value))) }
        = mapSet s.statsMap r.name (int64 (mapGet s.statsMap r.name + r.value)) := by
      simp only [State.statsMap]
      exact Heap.read_write_same _ _ _ hwf.1
    refine ⟨⟨?_, ?_⟩, ?_, ?_, Or.inl rfl, ?_⟩
    · simpa [Flow.state, Heap.length_write] using hwf.1
    · simp only [Flow.state]; rw [hsm]; exact keysNodup_mapSet _ _ _ hwf.2
    · simp only [Flow.state]; rw [hsm]; simp [applyRecord, h0]
    · simp [Flow.state, Heap.length_write]
    · intro a _ hne
      simp only [Flow.state]
      exact Heap.read_write_other _ _ _ _ (Ne.symm hne)
  by_cases h1 : r.control = "clear"
  · rw [startBody_clear s r h1 hwf]
    have hsm := statsMap_append s (s.statsMap.filter (fun kv => !HasPrefix kv.1 r.name))
      { s.c with stats := s.heap.length } s.results s.log rfl
    refine ⟨⟨?_, ?_⟩, ?_, ?_, Or.inr rfl, ?_⟩
    · simp [Flow.state]
    · simp only [Flow.state]; rw [hsm]; exact keysNodup_filter _ _ hwf.2
    · simp only [Flow.state]; rw [hsm]; simp [applyRecord, h1]
    · simp [Flow.state]
    · intro a ha _
      simp only [Flow.state]
      exact read_append_of_lt _ _ _ ha
  by_cases h2 : r.control = "stop"
  · rw [startBody_stop s r h2]
    refine ⟨hwf, ?_, le_refl _, Or.inl rfl, fun _ _ _ => rfl⟩
    simp [Flow.state, applyRecord, h0, h1]
  by_cases h3 : r.control = "snapshot"
  · rw [startBody_snapshot s r h3 hwf]
    have hsm : State.statsMap
        { s with heap := s.heap ++ [s.statsMap], results := s.results ++ [s.heap.length] }
        = s.statsMap := by
      simp only [State.statsMap]
      exact read_append_of_lt _ _ _ hwf.1
    refine ⟨⟨?_, ?_⟩, ?_, ?_, Or.inl rfl, ?_⟩
    · have := hwf.1
      simp only [Flow.state, List.length_append, List.length_singleton]
      omega
    · simp only [Flow.state]; rw [hsm]; exact hwf.2
    · simp only [Flow.state]; rw [hsm]; simp [applyRecord, h0, h1]
    · simp [Flow.state]
    · intro a ha _
      simp only [Flow.state]
      exact read_append_of_lt _ _ _ ha
  · rw [startBody_unknown s r h0 h1 h2 h3]
    refine ⟨hwf, ?_, le_refl _, Or.inl rfl, fun _ _ _ => rfl⟩
    simp [Flow.state, applyRecord, h0, h1, State.statsMap]

/-- No iteration writes `stopped` or touches a channel. -/
theorem startBody_flags (s : State) (r : countRecord) :
    (startBody s r).state.c.stopped = s.c.stopped
    ∧ (startBody s r).state.c.recordChannel = s.c.recordChannel
    ∧ (startBody s r).state.c.resultChannel = s.c.resultChannel := by
  unfold startBody
  split_ifs <;> simp [Flow.state, Heap.make]

/-- Only the iteration of a stop record ends by `return`. -/
theorem startBody_next (s : State) (r : countRecord) (h : r.control ≠ "stop") :
    startBody s r = .next (startBody s r).state := by
  unfold startBody
  split_ifs <;> simp_all [Flow.state, Heap.make]

/-! ## The owner loop -/

theorem start_cons_next (s : State) (r : countRecord) (rest : List countRecord)
    (h : r.control ≠ "stop") : start s (r :: rest) = start (startBody s r).state rest := by
  conv_lhs => rw [start, startBody_next s r h]

theorem start_cons_stop (s : State) (r : countRecord) (rest : List countRecord)
    (h : r.control = "stop") : start s (r :: rest) = deferred s := by
  rw [start, startBody_stop s r h]

theorem start_append (s : State) (xs ys : List countRecord)
    (h : ∀ r ∈ xs, r.control ≠ "stop") : start s (xs ++ ys) = start (start s xs) ys := by
  induction xs generalizing s with
  | nil => simp [start]
  | cons r xs ih =>
    have hr : r.control ≠ "stop" := h r (List.mem_cons_self _ _)
    have hxs : ∀ r ∈ xs, r.control ≠ "stop" := fun r hr => h r (List.mem_cons_of_mem _ hr)
    rw [List.cons_append, start_cons_next _ _ _ hr, start_cons_next _ _ _ hr, ih _ hxs]

theorem deferred_wf (s : State) (h : s.wf) : (deferred s).wf := h

theorem start_wf (s : State) (xs : List countRecord) (hwf : s.wf) : (start s xs).wf := by
  induction xs generalizing s with
  | nil => simpa [start] using hwf
  | cons r xs ih =>
    by_cases hr : r.control = "stop"
    · rw [start_cons_stop _ _ _ hr]; exact deferred_wf s hwf
    · rw [start_cons_next _ _ _ hr]; exact ih _ (startBody_spec s r hwf).1

/-- The owner loop never writes the field `stopped`. -/
theorem start_stopped (s : State) (xs : List countRecord) :
    (start s xs).c.stopped = s.c.stopped := by
  induction xs generalizing s with
  | nil => simp [start]
  | cons r xs ih =>
    by_cases hr : r.control = "stop"
    · rw [start_cons_stop _ _ _ hr]; rfl
    · rw [start_cons_next _ _ _ hr, ih, (startBody_flags s r).1]

/-- While no stop record is received both channels stay as they are. -/
theorem start_channels (s : State) (xs : List countRecord)
    (h : ∀ r ∈ xs, r.control ≠ "stop") :
    (start s xs).c.recordChannel = s.c.recordChannel
    ∧ (start s xs).c.resultChannel = s.c.resultChannel := by
  induction xs generalizing s with
  | nil => simp [start]
  | cons r xs ih =>
    have hr : r.control ≠ "stop" := h r (List.mem_cons_self _ _)
    have hxs : ∀ r ∈ xs, r.control ≠ "stop" := fun r hr => h r (List.mem_cons_of_mem _ hr)
    rw [start_cons_next _ _ _ hr]
    have := ih (startBody s r).state hxs
    rw [(startBody_flags s r).2.1, (startBody_flags s r).2.2] at this
    exact this

/-- The live map after a run without stop record is the fold of `applyRecord`. -/
theorem start_statsMap (s : State) (xs : List countRecord) (hwf : s.wf)
    (h : ∀ r ∈ xs, r.control ≠ "stop") :
    (start s xs).statsMap = xs.foldl applyRecord s.statsMap := by
  induction xs generalizing s with
  | nil => simp [start]
  | cons r xs ih =>
    have hr : r.control ≠ "stop" := h r (List.mem_cons_self _ _)
    have hxs : ∀ r ∈ xs, r.control ≠ "stop" := fun r hr => h r (List.mem_cons_of_mem _ hr)
    have hs := startBody_spec s r hwf
    rw [start_cons_next _ _ _ hr, ih _ hs.1 hxs, hs.2.1, List.foldl_cons]

theorem start_heap_length (s : State) (xs : List countRecord) (hwf : s.wf) :
    s.heap.length ≤ (start s xs).heap.length := by
  induction xs generalizing s with
  | nil => simp [start]
  | cons r xs ih =>
    by_cases hr : r.control = "stop"
    · rw [start_cons_stop _ _ _ hr]; exact le_refl _
    · have hs := startBody_spec s r hwf
      rw [start_cons_next _ _ _ hr]
      exact le_trans hs.2.2.1 (ih _ hs.1)

/-- A map object other than the live one is never written by the owner loop. -/
theorem start_isolated (s : State) (xs : List countRecord) (hwf : s.wf) (a : Nat)
    (ha : a < s.heap.length) (hne : a ≠ s.c.stats) :
    (start s xs).heap.read a = s.heap.read a := by
  induction xs generalizing s with
  | nil => simp [start]
  | cons r xs ih =>
    by_cases hr : r.control = "stop"
    · rw [start_cons_stop _ _ _ hr]; rfl
    · have hs := startBody_spec s r hwf
      rw [start_cons_next _ _ _ hr]
      have hne1 : a ≠ (startBody s r).state.c.stats := by
        rcases hs.2.2.2.1 with h1 | h1
        · rw [h1]; exact hne
        · rw [h1]; omega
      rw [ih _ hs.1 (lt_of_lt_of_le ha hs.2.2.1) hne1]
      exact hs.2.2.2.2 a ha hne

theorem startBody_results (s : State) (r : countRecord) :
    (startBody s r).state.results
      = if r.control = "snapshot" then s.results ++ [s.heap.length] else s.results := by
  unfold startBody
  split_ifs <;> simp_all [Flow.state, Heap.make]

/-- The results already sent stay in the trace. -/
theorem start_results_extend (s : State) (xs : List countRecord) :
    ∃ l, (start s xs).results = s.results ++ l := by
  induction xs generalizing s with
  | nil => exact ⟨[], by simp [start]⟩
  | cons r xs ih =>
    by_cases hr : r.control = "stop"
    · rw [start_cons_stop _ _ _ hr]; exact ⟨[], by simp [deferred]⟩
    · rw [start_cons_next _ _ _ hr]
      obtain ⟨l, hl⟩ := ih (startBody s r).state
      rw [hl, startBody_results]
      split_ifs
      · exact ⟨s.heap.length :: l, by simp⟩
      · exact ⟨l, rfl⟩

/-- One result is sent for each snapshot record received. -/
theorem start_results_length (s : State) (xs : List countRecord)
    (h : ∀ r ∈ xs, r.control ≠ "stop") :
    (start s xs).results.length
      = s.results.length + xs.countP (fun r => r.control = "snapshot") := by
  induction xs generalizing s with
  | nil => simp [start]
  | cons r xs ih =>
    have hr : r.control ≠ "stop" := h r (List.mem_cons_self _ _)
    have hxs : ∀ r ∈ xs, r.control ≠ "stop" := fun r hr => h r (List.mem_cons_of_mem _ hr)
    rw [start_cons_next _ _ _ hr, ih _ hxs, startBody_results, List.countP_cons]
    split_ifs <;> simp_all
    omega

/-! ## The public methods -/

theorem start_single (s : State) (r : countRecord) (h : r.control ≠ "stop") :
    start s [r] = (startBody s r).state := by
  rw [start_cons_next _ _ _ h]; rfl

/-- A `Snapshot` call on an open counter returns a fresh reference to a copy of the
live map. -/
theorem Snapshot_open (s : State) (hwf : s.wf) (h1 : s.c.stopped = false)
    (h2 : s.c.recordChannel.closed = false) :
    Snapshot s = .returns (some s.heap.length)
      { s with heap := s.heap ++ [s.statsMap], results := s.results ++ [s.heap.length] } := by
  have hb : start s [snapshotRecord]
      = { s with heap := s.heap ++ [s.statsMap], results := s.results ++ [s.heap.length] } := by
    rw [start_single s snapshotRecord (by decide), startBody_snapshot s snapshotRecord rfl hwf]
    rfl
  simp [Snapshot, send, h1, h2, hb, recv]

theorem NewCounter_wf : NewCounter.wf := by decide

theorem int64_int64_add (x y : Int) : int64 (int64 x + y) = int64 (x + y) := by
  unfold int64
  norm_num
  omega

theorem foldl_int64_add (ds : List Int) (acc : Int) :
    ds.foldl (fun acc d => int64 (acc + d)) acc
      = if ds = [] then acc else int64 (acc + ds.sum) := by
  induction ds generalizing acc with
  | nil => simp
  | cons d ds ih =>
    rw [List.foldl_cons, ih]
    by_cases h : ds = []
    · simp [h]
    · simp [h, int64_int64_add, add_assoc]

theorem int64Sum_perm (ps ds : List Int) (hp : ps.Perm ds) : int64Sum ps = int64Sum ds := by
  unfold int64Sum
  rw [foldl_int64_add, foldl_int64_add, hp.sum_eq]
  by_cases h : ds = []
  · have : ps = [] := by simpa [h] using hp
    simp [h, this]
  · have : ps ≠ [] := fun e => h (by simpa [e] using hp.symm)
    simp [h, this]

theorem mapGet_mapSet_same (m : StatsMap) (k : String) (v : Int) :
    mapGet (mapSet m k v) k = v := by
  simp [mapGet, mapFind_mapSet]

/-- The entry of `name` after a run of increments of `name`. -/
theorem mapFind_foldl_stat (name : String) (ds : List Int) (m : StatsMap) :
    mapFind ((ds.map (statRecord name)).foldl applyRecord m) name
      = if ds = [] then mapFind m name
        else some (ds.foldl (fun acc d => int64 (acc + d)) (mapGet m name)) := by
  induction ds generalizing m with
  | nil => simp
  | cons d ds ih =>
    rw [List.map_cons, List.foldl_cons, ih]
    have hstep : applyRecord m (statRecord name d)
        = mapSet m name (int64 (mapGet m name + d)) := by
      simp [applyRecord, statRecord]
    rw [hstep, mapGet_mapSet_same, mapFind_mapSet]
    by_cases h : ds = []
    · simp [h]
    · simp [h]

theorem statRecord_ne_stop (name : String) (ds : List Int) :
    ∀ r ∈ ds.map (statRecord name), r.control ≠ "stop" := by
  intro r hr
  obtain ⟨d, _, rfl⟩ := List.mem_map.mp hr
  simp [statRecord]

/-- C1. Accumulation correctness: for every name, every list of deltas and every
order (permutation) in which the records of `Stat(name, d_i)` reach the owner of a
fresh Counter, a `Snapshot` called afterwards returns a map whose entry for the name
is the int64 sum of the deltas (with no delta at all the name is absent, and the
Go index expression reads the empty sum 0). -/
theorem accumulation_correct (name : String) (ds ps : List Int) (hp : ps.Perm ds) :
    ∃ a s1, Snapshot (start NewCounter (ps.map (statRecord name))) = .returns (some a) s1
      ∧ mapGet (s1.heap.read a) name = int64Sum ds
      ∧ mapFind (s1.heap.read a) name = if ds = [] then none else some (int64Sum ds) := by
  have hns := statRecord_ne_stop name ps
  have hwf := start_wf NewCounter (ps.map (statRecord name)) NewCounter_wf
  have hst : (start NewCounter (ps.map (statRecord name))).c.stopped = false := by
    rw [start_stopped]; rfl
  have hch : (start NewCounter (ps.map (statRecord name))).c.recordChannel.closed = false := by
    rw [(start_channels NewCounter _ hns).1]; rfl
  have hmap := start_statsMap NewCounter (ps.map (statRecord name)) NewCounter_wf hns
  have hfind : mapFind (start NewCounter (ps.map (statRecord name))).statsMap name
      = if ds = [] then none else some (int64Sum ds) := by
    rw [hmap, mapFind_foldl_stat]
    have h0 : NewCounter.statsMap = [] := by decide
    rw [h0, ← int64Sum_perm ps ds hp]
    by_cases h : ds = []
    · have : ps = [] := by simpa [h] using hp
      simp [h, this, mapFind]
    · have : ps ≠ [] := fun e => h (by simpa [e] using hp.symm)
      simp [h, this, mapGet, mapFind, int64Sum]
  refine ⟨_, _, Snapshot_open _ hwf hst hch, ?_, ?_⟩
  · have hr : Heap.read ((start NewCounter (ps.map (statRecord name))).heap
        ++ [(start NewCounter (ps.map (statRecord name))).statsMap])
        (start NewCounter (ps.map (statRecord name))).heap.length
        = (start NewCounter (ps.map (statRecord name))).statsMap := by
      simp [Heap.read, List.getD_eq_getElem?_getD]
    simp only [hr, mapGet, hfind]
    by_cases h : ds = []
    · simp [h, int64Sum]
    · simp [h]
  · have hr : Heap.read ((start NewCounter (ps.map (statRecord name))).heap
        ++ [(start NewCounter (ps.map (statRecord name))).statsMap])
        (start NewCounter (ps.map (statRecord name))).heap.length
        = (start NewCounter (ps.map (statRecord name))).statsMap := by
      simp [Heap.read, List.getD_eq_getElem?_getD]
    simp only [hr, hfind]

/-- Witness of C1: the deltas 5, -2, 9 processed in the order 9, 5, -2. -/
theorem accumulation_correct_witness :
    [9, 5, -2].Perm [5, -2, 9]
    ∧ ∃ a s1, Snapshot (start NewCounter ([9, 5, -2].map (statRecord "req"))) = .returns (some a) s1
      ∧ mapGet (s1.heap.read a) "req" = int64Sum [5, -2, 9]
      ∧ mapFind (s1.heap.read a) "req" = if [5, -2, 9] = [] then none else some (int64Sum [5, -2, 9]) :=
  ⟨by decide, accumulation_correct "req" [5, -2, 9] [9, 5, -2] (by decide)⟩

theorem foldl_applyRecord_filter (xs : List countRecord) (m : StatsMap) :
    (xs.filter (fun r => r.control ≠ "snapshot")).foldl applyRecord m
      = xs.foldl applyRecord m := by
  induction xs generalizing m with
  | nil => rfl
  | cons r xs ih =>
    by_cases h : r.control = "snapshot"
    · have : applyRecord m r = m := by simp [applyRecord, h]
      simp only [List.filter_cons, h, List.foldl_cons, this]
      simpa using ih m
    · simpa [List.filter_cons, h] using ih (applyRecord m r)

theorem ne_stop_of_kind (xs : List countRecord)
    (h : ∀ r ∈ xs, r.control = "" ∨ r.control = "clear" ∨ r.control = "snapshot") :
    ∀ r ∈ xs, r.control ≠ "stop" := by
  intro r hr hs
  rcases h r hr with h1 | h1 | h1 <;> rw [hs] at h1 <;> exact absurd h1 (by decide)

/-- C2. FIFO snapshot consistency: in every run of the owner loop from the empty state
over Stat/Clear/Snapshot records, the map returned for a Snapshot record (the i-th
result for the i-th Snapshot) is, also after all later records were processed, the
live map reached by processing exactly the Stat and Clear records that precede it, in
order; in particular Stat("a",1), Stat("a",1), Snapshot, Stat("a",1), Snapshot
returns the maps a:2 and then a:3. -/
theorem fifo_snapshot (pre post : List countRecord) (snap : countRecord)
    (hpre : ∀ r ∈ pre, r.control = "" ∨ r.control = "clear" ∨ r.control = "snapshot")
    (hsnap : snap.control = "snapshot") :
    (∃ a, (start NewCounter (pre ++ snap :: post)).results.get?
            (pre.countP (fun r => r.control = "snapshot")) = some a
        ∧ (start NewCounter (pre ++ snap :: post)).heap.read a
            = (start NewCounter (pre.filter (fun r => r.control ≠ "snapshot"))).statsMap)
    ∧ (start NewCounter [statRecord "a" 1, statRecord "a" 1, snapshotRecord,
          statRecord "a" 1, snapshotRecord]).results.map
        (start NewCounter [statRecord "a" 1, statRecord "a" 1, snapshotRecord,
          statRecord "a" 1, snapshotRecord]).heap.read
        = [[("a", 2)], [("a", 3)]] := by
  refine ⟨?_, by decide⟩
  have hns := ne_stop_of_kind pre hpre
  have hsn : snap.control ≠ "stop" := by rw [hsnap]; decide
  have hwf1 := start_wf NewCounter pre NewCounter_wf
  have hfilt : ∀ r ∈ pre.filter (fun r => r.control ≠ "snapshot"), r.control ≠ "stop" :=
    fun r hr => hns r (List.mem_of_mem_filter hr)
  have hlen := start_results_length NewCounter pre hns
  have hbody := startBody_snapshot (start NewCounter pre) snap hsnap hwf1
  have hrun : start NewCounter (pre ++ snap :: post)
      = start (startBody (start NewCounter pre) snap).state post := by
    rw [start_append _ _ _ hns, start_cons_next _ _ _ hsn]
  have hwf2 := (startBody_spec (start NewCounter pre) snap hwf1).1
  rw [hbody] at hrun hwf2
  simp only [Flow.state] at hrun hwf2
  obtain ⟨l, hl⟩ := start_results_extend
    { start NewCounter pre with
      heap := (start NewCounter pre).heap ++ [(start NewCounter pre).statsMap],
      results := (start NewCounter pre).results ++ [(start NewCounter pre).heap.length] } post
  refine ⟨(start NewCounter pre).heap.length, ?_, ?_⟩
  · rw [hrun, hl]
    have h0 : NewCounter.results.length = 0 := by decide
    rw [h0, Nat.zero_add] at hlen
    simp only [List.append_assoc, List.singleton_append]
    rw [← hlen, List.get?_eq_getElem?, List.getElem?_append_right (le_refl _)]
    simp
  · rw [hrun, start_isolated _ post hwf2 (start NewCounter pre).heap.length (by simp)
      (by have := hwf1.1; simp only; omega)]
    rw [start_statsMap NewCounter _ NewCounter_wf hfilt, foldl_applyRecord_filter,
      ← start_statsMap NewCounter pre NewCounter_wf hns]
    simp [Heap.read, List.getD_eq_getElem?_getD]

/-- Witness of C2: the scenario of the claim, at its second Snapshot. -/
theorem fifo_snapshot_witness :
    (∃ a, (start NewCounter ([statRecord "a" 1, statRecord "a" 1, snapshotRecord,
              statRecord "a" 1] ++ snapshotRecord :: [statRecord "a" 7])).results.get?
            ([statRecord "a" 1, statRecord "a" 1, snapshotRecord,
              statRecord "a" 1].countP (fun r => r.control = "snapshot")) = some a
        ∧ (start NewCounter ([statRecord "a" 1, statRecord "a" 1, snapshotRecord,
              statRecord "a" 1] ++ snapshotRecord :: [statRecord "a" 7])).heap.read a
            = (start NewCounter ([statRecord "a" 1, statRecord "a" 1, snapshotRecord,
                statRecord "a" 1].filter (fun r => r.control ≠ "snapshot"))).statsMap)
    ∧ (start NewCounter [statRecord "a" 1, statRecord "a" 1, snapshotRecord,
          statRecord "a" 1, snapshotRecord]).results.map
        (start NewCounter [statRecord "a" 1, statRecord "a" 1, snapshotRecord,
          statRecord "a" 1, snapshotRecord]).heap.read
        = [[("a", 2)], [("a", 3)]] :=
  fifo_snapshot [statRecord "a" 1, statRecord "a" 1, snapshotRecord, statRecord "a" 1]
    [statRecord "a" 7] snapshotRecord (by decide) (by decide)

theorem mapFind_filter (p : String → Bool) (m : StatsMap) (k : String) :
    mapFind (m.filter (fun kv => p kv.1)) k = if p k then mapFind m k else none := by
  induction m with
  | nil => simp [mapFind]
  | cons e m ih =>
    obtain ⟨k1, v1⟩ := e
    by_cases hp : p k1 = true
    · by_cases hk : k1 = k
      · subst hk; simp [List.filter_cons, hp, mapFind]
      · simp [List.filter_cons, hp, mapFind, hk, ih]
    · by_cases hk : k1 = k
      · subst hk; simp [List.filter_cons, hp, mapFind, ih]
      · simp [List.filter_cons, hp, mapFind, hk, ih]

/-- C3. Prefix clear correctness: processing `Clear(P)` in any well-formed state
leaves a live map whose entries are exactly the former entries whose key does not
start with P, with their former values; from req.a:1, req.b:2, db.c:3 the record
`Clear("req.")` leaves exactly db.c:3. -/
theorem clear_removes_matching (s : State) (P : String) (hwf : s.wf) :
    (start s [clearRecord P]).statsMap = s.statsMap.filter (fun kv => !HasPrefix kv.1 P)
    ∧ (∀ k, mapFind (start s [clearRecord P]).statsMap k
          = if HasPrefix k P then none else mapFind s.statsMap k)
    ∧ (start NewCounter [statRecord "req.a" 1, statRecord "req.b" 2,
          statRecord "db.c" 3]).statsMap = [("req.a", 1), ("req.b", 2), ("db.c", 3)]
    ∧ (start (start NewCounter [statRecord "req.a" 1, statRecord "req.b" 2,
          statRecord "db.c" 3]) [clearRecord "req."]).statsMap = [("db.c", 3)] := by
  have hm : (start s [clearRecord P]).statsMap
      = s.statsMap.filter (fun kv => !HasPrefix kv.1 P) := by
    rw [start_single s (clearRecord P) (by simp [clearRecord]),
      (startBody_spec s (clearRecord P) hwf).2.1]
    simp [applyRecord, clearRecord]
  refine ⟨hm, ?_, by decide, by decide⟩
  intro k
  rw [hm, mapFind_filter (fun k => !HasPrefix k P)]
  by_cases h : HasPrefix k P = true
  · simp [h]
  · simp [h]

/-- Witness of C3: the three entries of the claim and the prefix `req.`. -/
theorem clear_removes_matching_witness :
    (start NewCounter [statRecord "req.a" 1, statRecord "req.b" 2, statRecord "db.c" 3]).wf
    ∧ (start (start NewCounter [statRecord "req.a" 1, statRecord "req.b" 2,
          statRecord "db.c" 3]) [clearRecord "req."]).statsMap
        = (start NewCounter [statRecord "req.a" 1, statRecord "req.b" 2,
            statRecord "db.c" 3]).statsMap.filter (fun kv => !HasPrefix kv.1 "req.") :=
  ⟨by decide, (clear_removes_matching (start NewCounter [statRecord "req.a" 1, statRecord "req.b" 2,
      statRecord "db.c" 3]) "req." (by decide)).1⟩

/-- C4. Full clear: processing `Clear("")` yields the empty map, in every state,
however many entries the live map holds. -/
theorem clear_all (s : State) : (start s [clearRecord ""]).statsMap = [] := by
  rw [start_single s (clearRecord "") (by simp [clearRecord])]
  simp [startBody, clearRecord, Heap.make, Flow.state, State.statsMap, Heap.read,
    List.getD_eq_getElem?_getD]

/-- Once a stop record has been received the record channel is closed. -/
theorem start_stop_closed (s : State) (xs ys : List countRecord) (stop : countRecord)
    (hstop : stop.control = "stop") :
    (start s (xs ++ stop :: ys)).c.recordChannel.closed = true := by
  induction xs generalizing s with
  | nil => rw [List.nil_append, start_cons_stop _ _ _ hstop]; rfl
  | cons r xs ih =>
    by_cases hr : r.control = "stop"
    · rw [List.cons_append, start_cons_stop _ _ _ hr]; rfl
    · rw [List.cons_append, start_cons_next _ _ _ hr]; exact ih _

/-- C5 (the code at the failing input, and at every other). After the owner of a
Counter has processed a Stop record, whatever it processed before, a call of `Stat` or
of `Clear` does attempt the send, on a channel that is now closed, and panics: the
field `stopped` the guards read is still false. -/
theorem mutators_after_stop_panic (xs : List countRecord) (name : String) (value : Int)
    (pfx : String) :
    (start NewCounter (xs ++ [stopRecord])).c.stopped = false
    ∧ Stat (start NewCounter (xs ++ [stopRecord])) name value
        = .panics "send on closed channel"
    ∧ Clear (start NewCounter (xs ++ [stopRecord])) pfx
        = .panics "send on closed channel" := by
  have hst : (start NewCounter (xs ++ [stopRecord])).c.stopped = false := by
    rw [start_stopped]; rfl
  have hcl := start_stop_closed NewCounter xs [] stopRecord rfl
  refine ⟨hst, ?_, ?_⟩
  · simp [Stat, send, hst, hcl]
  · simp [Clear, send, hst, hcl]

/-- C6 (the code at the failing input, and at every other). After the owner of a
Counter has processed a Stop record, a call of `Snapshot` does not return nil: it
attempts the send on the closed channel and panics, as does the `Stat("x", 5)`
before it. -/
theorem snapshot_after_stop_panics (xs : List countRecord) :
    Snapshot (start NewCounter (xs ++ [stopRecord])) = .panics "send on closed channel"
    ∧ Stat (start NewCounter [stopRecord]) "x" 5 = .panics "send on closed channel" := by
  have hst : (start NewCounter (xs ++ [stopRecord])).c.stopped = false := by
    rw [start_stopped]; rfl
  have hcl := start_stop_closed NewCounter xs [] stopRecord rfl
  refine ⟨?_, by decide⟩
  simp [Snapshot, send, hst, hcl]

/-- C7. Snapshot isolation: processing a Snapshot record in a well-formed state
sends a reference to a map object that did not exist before, is not the live map
object, and holds the entries of the live map of that moment; whatever records the
owner processes afterwards, the object behind that reference is unchanged. -/
theorem snapshot_isolation (s : State) (rs : List countRecord) (hwf : s.wf) :
    ∃ a, (start s [snapshotRecord]).results = s.results ++ [a]
      ∧ s.heap.length ≤ a
      ∧ a ≠ (start s [snapshotRecord]).c.stats
      ∧ (start s [snapshotRecord]).statsMap = s.statsMap
      ∧ (start s [snapshotRecord]).heap.read a = s.statsMap
      ∧ (start (start s [snapshotRecord]) rs).heap.read a = s.statsMap := by
  have hb := startBody_snapshot s snapshotRecord rfl hwf
  have hsp := startBody_spec s snapshotRecord hwf
  have hrun : start s [snapshotRecord]
      = { s with heap := s.heap ++ [s.statsMap], results := s.results ++ [s.heap.length] } := by
    rw [start_single s snapshotRecord (by decide), hb]; rfl
  have hwf1 : (start s [snapshotRecord]).wf := start_wf s _ hwf
  have hread : (start s [snapshotRecord]).heap.read s.heap.length = s.statsMap := by
    rw [hrun]; simp [Heap.read, List.getD_eq_getElem?_getD]
  have hne : s.heap.length ≠ (start s [snapshotRecord]).c.stats := by
    rw [hrun]; have := hwf.1; simp only; omega
  have hlt : s.heap.length < (start s [snapshotRecord]).heap.length := by
    rw [hrun]; simp
  refine ⟨s.heap.length, by rw [hrun], le_refl _, hne, ?_, hread, ?_⟩
  · rw [start_single s snapshotRecord (by decide), hsp.2.1]
    simp [applyRecord, snapshotRecord]
  · rw [start_isolated _ rs hwf1 _ hlt hne, hread]

/-- Witness of C7: a snapshot of a:2, then an increment and a full clear. -/
theorem snapshot_isolation_witness :
    (start NewCounter [statRecord "a" 2]).wf
    ∧ ∃ a, (start (start NewCounter [statRecord "a" 2]) [snapshotRecord]).results
          = (start NewCounter [statRecord "a" 2]).results ++ [a]
      ∧ (start NewCounter [statRecord "a" 2]).heap.length ≤ a
      ∧ a ≠ (start (start NewCounter [statRecord "a" 2]) [snapshotRecord]).c.stats
      ∧ (start (start NewCounter [statRecord "a" 2]) [snapshotRecord]).statsMap
          = (start NewCounter [statRecord "a" 2]).statsMap
      ∧ (start (start NewCounter [statRecord "a" 2]) [snapshotRecord]).heap.read a
          = (start NewCounter [statRecord "a" 2]).statsMap
      ∧ (start (start (start NewCounter [statRecord "a" 2]) [snapshotRecord])
            [statRecord "a" 1, clearRecord ""]).heap.read a
          = (start NewCounter [statRecord "a" 2]).statsMap :=
  ⟨by decide, snapshot_isolation (start NewCounter [statRecord "a" 2])
    [statRecord "a" 1, clearRecord ""] (by decide)⟩

/-- C8. Empty initial state: `Snapshot()` on the Counter that `NewCounter` returns, with
no record processed before, returns a reference (not nil) to an allocated map object
that has no entries. -/
theorem snapshot_of_new_counter :
    ∃ a s1, Snapshot NewCounter = .returns (some a) s1
      ∧ a < s1.heap.length ∧ s1.heap.read a = [] :=
  ⟨1, _, Snapshot_open NewCounter NewCounter_wf rfl rfl, by decide, by decide⟩

theorem start_eq_foldl (s : State) (xs : List countRecord)
    (h : ∀ r ∈ xs, r.control ≠ "stop") :
    start s xs = xs.foldl (fun t r => (startBody t r).state) s := by
  induction xs generalizing s with
  | nil => rfl
  | cons r xs ih =>
    have hr : r.control ≠ "stop" := h r (List.mem_cons_self _ _)
    have hxs : ∀ r ∈ xs, r.control ≠ "stop" := fun r hr => h r (List.mem_cons_of_mem _ hr)
    rw [start_cons_next _ _ _ hr, ih _ hxs, List.foldl_cons]

/-- C9. Stop drains then terminates: when the owner loop receives xs, then a Stop
record, then ys, where the Stop record is the first one, it runs its loop body on
every record of xs in order, then returns, closing both channels; the outcome does
not depend on ys, none of whose records is processed. -/
theorem stop_drains (s : State) (xs ys : List countRecord) (stop : countRecord)
    (hstop : stop.control = "stop") (hxs : ∀ r ∈ xs, r.control ≠ "stop") :
    start s (xs ++ [stop] ++ ys)
      = deferred (xs.foldl (fun t r => (startBody t r).state) s)
    ∧ (start s (xs ++ [stop] ++ ys)).c.recordChannel.closed = true
    ∧ (start s (xs ++ [stop] ++ ys)).c.resultChannel.closed = true := by
  have hrun : start s (xs ++ [stop] ++ ys)
      = deferred (xs.foldl (fun t r => (startBody t r).state) s) := by
    rw [List.append_assoc, start_append _ _ _ hxs, List.singleton_append,
      start_cons_stop _ _ _ hstop, start_eq_foldl _ _ hxs]
  exact ⟨hrun, by rw [hrun]; rfl, by rw [hrun]; rfl⟩

/-- Witness of C9: two increments and a snapshot are drained, the increment of b
after the Stop record is not applied. -/
theorem stop_drains_witness :
    (start NewCounter ([statRecord "a" 1, snapshotRecord, statRecord "a" 2] ++ [stopRecord]
        ++ [statRecord "b" 4, snapshotRecord])).statsMap = [("a", 3)]
    ∧ (start NewCounter ([statRecord "a" 1, snapshotRecord, statRecord "a" 2] ++ [stopRecord]
        ++ [statRecord "b" 4, snapshotRecord])).results.length = 1
    ∧ start NewCounter ([statRecord "a" 1, snapshotRecord, statRecord "a" 2] ++ [stopRecord]
        ++ [statRecord "b" 4, snapshotRecord])
      = deferred ([statRecord "a" 1, snapshotRecord, statRecord "a" 2].foldl
          (fun t r => (startBody t r).state) NewCounter) :=
  ⟨by decide, by decide,
    (stop_drains NewCounter [statRecord "a" 1, snapshotRecord, statRecord "a" 2]
      [statRecord "b" 4, snapshotRecord] stopRecord (by decide) (by decide)).1⟩

/-- C10. Unrecognized control request is non-fatal: for a record whose control field
is non-empty and none of clear, stop, snapshot, the loop body changes nothing but
the log, which gains one line: the counter, the heap of maps and the results sent are
as before, and the loop goes on to process the records that follow. -/
theorem unknown_control_ignored (s : State) (r : countRecord) (rest : List countRecord)
    (h0 : r.control ≠ "") (h1 : r.control ≠ "clear") (h2 : r.control ≠ "stop")
    (h3 : r.control ≠ "snapshot") :
    startBody s r
      = .next { s with log := s.log ++ [Sprintln ["Unknown control command: ", r.name]] }
    ∧ start s (r :: rest)
      = start { s with log := s.log ++ [Sprintln ["Unknown control command: ", r.name]] } rest := by
  have hb := startBody_unknown s r h0 h1 h2 h3
  refine ⟨hb, ?_⟩
  rw [start_cons_next _ _ _ h2, hb]
  rfl

/-- Witness of C10: a record with control `reset` between two increments. -/
theorem unknown_control_ignored_witness :
    startBody (start NewCounter [statRecord "a" 1]) ⟨"a", "reset", 0⟩
      = .next { start NewCounter [statRecord "a" 1] with
          log := ["Unknown control command:  a\n"] }
    ∧ (start NewCounter [statRecord "a" 1, ⟨"a", "reset", 0⟩, statRecord "a" 1]).statsMap
      = [("a", 2)] :=
  ⟨(unknown_control_ignored (start NewCounter [statRecord "a" 1]) ⟨"a", "reset", 0⟩ []
      (by decide) (by decide) (by decide) (by decide)).1, by decide⟩

/-! ## Increments, the closed set of operations and the flag `stopped` -/

theorem int64_of_range (x : Int) (hlo : -2 ^ 63 ≤ x) (hhi : x < 2 ^ 63) : int64 x = x := by
  unfold int64
  norm_num at hlo hhi ⊢
  omega

theorem Heap.read_write (h : Heap) (a : Nat) (m : StatsMap) :
    (h.write a m).read a = if a < h.length then m else h.read a := by
  by_cases ha : a < h.length
  · simp [ha, Heap.read_write_same h a m ha]
  · have hle : h.length ≤ a := Nat.le_of_not_lt ha
    have hle1 : (h.set a m).length ≤ a := by simpa using hle
    simp [ha, Heap.write, Heap.read, List.getD_eq_getElem?_getD, List.getElem?_eq_none hle,
      List.getElem?_eq_none hle1]

theorem start_stat (s : State) (name : String) (value : Int) :
    start s [statRecord name value]
      = { s with heap := Heap.write s.heap s.c.stats (mapSet s.statsMap name
          (int64 (mapGet s.statsMap name + value))) } := by
  rw [start_single s _ (by simp [statRecord]), startBody_stat s _ rfl]
  rfl

/-- C12. Increment creates absent entries from 0: in a well-formed state where the
name is absent, processing `Stat(name, delta)` for any int64 delta (0 and negative
values included) leaves the name present with value exactly delta, and a snapshot
taken next shows the name with that value. -/
theorem stat_creates_entry (s : State) (name : String) (delta : Int) (hwf : s.wf)
    (habs : mapFind s.statsMap name = none) (hlo : -2 ^ 63 ≤ delta) (hhi : delta < 2 ^ 63) :
    mapFind (start s [statRecord name delta]).statsMap name = some delta
    ∧ ∃ a, (start s [statRecord name delta, snapshotRecord]).results = s.results ++ [a]
        ∧ mapFind ((start s [statRecord name delta, snapshotRecord]).heap.read a) name
            = some delta := by
  have hget : mapGet s.statsMap name = 0 := by simp [mapGet, habs]
  have hwf1 : (start s [statRecord name delta]).wf := start_wf s _ hwf
  have hmap : (start s [statRecord name delta]).statsMap = mapSet s.statsMap name delta := by
    rw [start_stat, hget, Int.zero_add, int64_of_range delta hlo hhi]
    simp only [State.statsMap]
    exact Heap.read_write_same _ _ _ hwf.1
  have hfind : mapFind (start s [statRecord name delta]).statsMap name = some delta := by
    rw [hmap, mapFind_mapSet]; simp
  have hres : (start s [statRecord name delta]).results = s.results := by
    rw [start_stat]
  have hrun : start s [statRecord name delta, snapshotRecord]
      = { start s [statRecord name delta] with
          heap := (start s [statRecord name delta]).heap
            ++ [(start s [statRecord name delta]).statsMap],
          results := (start s [statRecord name delta]).results
            ++ [(start s [statRecord name delta]).heap.length] } := by
    have h1 : start s [statRecord name delta, snapshotRecord]
        = start (start s [statRecord name delta]) [snapshotRecord] :=
      start_append s [statRecord name delta] [snapshotRecord]
        (by intro r hr; simp at hr; subst hr; simp [statRecord])
    rw [h1, start_single _ snapshotRecord (by decide),
      startBody_snapshot _ snapshotRecord rfl hwf1]
    rfl
  refine ⟨hfind, (start s [statRecord name delta]).heap.length, ?_, ?_⟩
  · rw [hrun, hres]
  · rw [hrun]
    have hr : Heap.read ((start s [statRecord name delta]).heap
        ++ [(start s [statRecord name delta]).statsMap])
        (start s [statRecord name delta]).heap.length
        = (start s [statRecord name delta]).statsMap := by
      simp [Heap.read, List.getD_eq_getElem?_getD]
    simp only [hr, hfind]

/-- Witness of C12: `Stat("x", 0)` on the fresh Counter. -/
theorem stat_creates_entry_witness :
    mapFind (start NewCounter [statRecord "x" 0]).statsMap "x" = some 0
    ∧ ∃ a, (start NewCounter [statRecord "x" 0, snapshotRecord]).results
          = NewCounter.results ++ [a]
        ∧ mapFind ((start NewCounter [statRecord "x" 0, snapshotRecord]).heap.read a) "x"
            = some 0 :=
  stat_creates_entry NewCounter "x" 0 (by decide) (by decide) (by decide) (by decide)

/-- A record with one of the four known controls adds nothing to the log. -/
theorem start_log_known (s : State) (r : countRecord)
    (h : r.control = "" ∨ r.control = "clear" ∨ r.control = "stop" ∨ r.control = "snapshot") :
    (start s [r]).log = s.log := by
  by_cases hs : r.control = "stop"
  · rw [start_cons_stop _ _ _ hs]; rfl
  · rw [start_single s r hs]
    unfold startBody
    split_ifs <;> simp_all [Flow.state, Heap.make]

/-- A public call that returns either had no effect or had the owner process one
record, whose control is one of the four known ones. -/
theorem exec_eq (s s1 : State) (c : Call) (h : exec s c = some s1) :
    s1 = s ∨ ∃ r, (r.control = "" ∨ r.control = "clear" ∨ r.control = "stop"
        ∨ r.control = "snapshot") ∧ s1 = start s [r] := by
  cases c with
  | stat name value =>
    by_cases hst : s.c.stopped = true
    · left; simp [exec, Stat, hst, Outcome.state] at h; exact h.symm
    · by_cases hcl : s.c.recordChannel.closed = true
      · simp [exec, Stat, hst, send, hcl, Outcome.state] at h
      · right
        simp [exec, Stat, hst, send, hcl, Outcome.state] at h
        exact ⟨statRecord name value, Or.inl rfl, h.symm⟩
  | clear pfx =>
    by_cases hst : s.c.stopped = true
    · left; simp [exec, Clear, hst, Outcome.state] at h; exact h.symm
    · by_cases hcl : s.c.recordChannel.closed = true
      · simp [exec, Clear, hst, send, hcl, Outcome.state] at h
      · right
        simp [exec, Clear, hst, send, hcl, Outcome.state] at h
        exact ⟨clearRecord pfx, Or.inr (Or.inl rfl), h.symm⟩
  | stop =>
    by_cases hcl : s.c.recordChannel.closed = true
    · simp [exec, Stop, send, hcl, Outcome.state] at h
    · right
      simp [exec, Stop, send, hcl, Outcome.state] at h
      exact ⟨stopRecord, Or.inr (Or.inr (Or.inl rfl)), h.symm⟩
  | snapshot =>
    by_cases hst : s.c.stopped = true
    · left; simp [exec, Snapshot, hst, Outcome.state] at h; exact h.symm
    · by_cases hcl : s.c.recordChannel.closed = true
      · simp [exec, Snapshot, hst, send, hcl, Outcome.state] at h
      · right
        refine ⟨snapshotRecord, Or.inr (Or.inr (Or.inr rfl)), ?_⟩
        simp only [exec, Snapshot, hst, send, hcl, recv] at h
        revert h
        simp only [Bool.not_false, if_true, Bool.false_eq_true, if_false]
        split <;> try split
        all_goals simp [Outcome.state]
        all_goals intro h; exact h.symm

theorem runCalls_log (s s1 : State) (cs : List Call) (h : runCalls s cs = some s1) :
    s1.log = s.log := by
  induction cs generalizing s with
  | nil => simp [runCalls] at h; rw [h]
  | cons c cs ih =>
    simp only [runCalls] at h
    cases hx : exec s c with
    | none => simp [hx] at h
    | some s2 =>
      simp only [hx] at h
      rw [ih s2 h]
      rcases exec_eq s s2 c hx with h1 | ⟨r, hr, h1⟩
      · rw [h1]
      · rw [h1, start_log_known s r hr]

/-- C13. Closed operation set: whatever the arguments (empty strings included), the
records the four public methods send have control field empty, snapshot, clear and
stop; the record of `Stat` takes the data branch of the loop body; and no sequence
of public calls ever adds a line to the log, that is, the unknown-control branch is
never run through the public interface. -/
theorem closed_operation_set (name pfx : String) (value : Int) (s s1 : State)
    (cs : List Call) (h : runCalls s cs = some s1) :
    (statRecord name value).control = ""
    ∧ snapshotRecord.control = "snapshot"
    ∧ (clearRecord pfx).control = "clear"
    ∧ stopRecord.control = "stop"
    ∧ startBody s (statRecord name value)
        = .next { s with heap := Heap.write s.heap s.c.stats (mapSet s.statsMap name
            (int64 (mapGet s.statsMap name + value))) }
    ∧ s1.log = s.log :=
  ⟨rfl, rfl, rfl, rfl, startBody_stat s _ rfl, runCalls_log s s1 cs h⟩

/-- Witness of C13: calls with empty name and empty prefix, a snapshot and a stop. -/
theorem closed_operation_set_witness :
    runCalls NewCounter [.stat "" 3, .clear "", .stat "a" 1, .snapshot, .stop]
      = some (start NewCounter [statRecord "" 3, clearRecord "", statRecord "a" 1,
          snapshotRecord, stopRecord])
    ∧ (start NewCounter [statRecord "" 3, clearRecord "", statRecord "a" 1,
          snapshotRecord, stopRecord]).log = NewCounter.log :=
  ⟨by decide, (closed_operation_set "" "" 3 NewCounter _
    [.stat "" 3, .clear "", .stat "a" 1, .snapshot, .stop] (by decide)).2.2.2.2.2⟩

theorem reachable_stopped (s : State) (h : Reachable s) : s.c.stopped = false := by
  induction h with
  | newCounter => rfl
  | call s s1 c _ hx ih =>
    rcases exec_eq s s1 c hx with h1 | ⟨r, _, h1⟩
    · rw [h1]; exact ih
    · rw [h1, start_stopped]; exact ih
  | owner s rs _ ih => rw [start_stopped]; exact ih

/-- C14. In every state reachable from `NewCounter` by public calls and runs of the
owner loop the flag `stopped` is false (nothing writes it), also after any further
records are processed, so `Stat`, `Clear` and `Snapshot` take the branch that sends
their record. -/
theorem stopped_always_false (s : State) (name pfx : String) (value : Int)
    (rs : List countRecord) (h : Reachable s) :
    s.c.stopped = false
    ∧ (start s rs).c.stopped = false
    ∧ Stat s name value = send s (statRecord name value)
    ∧ Clear s pfx = send s (clearRecord pfx)
    ∧ Snapshot s = (match send s snapshotRecord with
        | .returns _ s1 => recv s1 s.results.length
        | .panics msg => .panics msg
        | .blocks => .blocks) := by
  have hst := reachable_stopped s h
  refine ⟨hst, by rw [start_stopped]; exact hst, ?_, ?_, ?_⟩
  · simp [Stat, hst]
  · simp [Clear, hst]
  · simp [Snapshot, hst]

/-- Witness of C14: the state after `Stat("a", 1)` and `Stop()`, the owner gone. -/
theorem stopped_always_false_witness :
    (start NewCounter [statRecord "a" 1, stopRecord]).c.recordChannel.closed = true
    ∧ (start NewCounter [statRecord "a" 1, stopRecord]).c.stopped = false
    ∧ Stat (start NewCounter [statRecord "a" 1, stopRecord]) "x" 5
        = send (start NewCounter [statRecord "a" 1, stopRecord]) (statRecord "x" 5) :=
  ⟨by decide,
    (stopped_always_false (start NewCounter [statRecord "a" 1, stopRecord]) "x" "" 5 []
      (Reachable.call _ _ .stop
        (Reachable.call NewCounter _ (.stat "a" 1) Reachable.newCounter
          (by decide : exec NewCounter (.stat "a" 1) = some (start NewCounter [statRecord "a" 1])))
        (by decide))).1,
    (stopped_always_false (start NewCounter [statRecord "a" 1, stopRecord]) "x" "" 5 []
      (Reachable.owner NewCounter [statRecord "a" 1, stopRecord] Reachable.newCounter)).2.2.1⟩

/-- C15. Increment frame: processing `Stat(name, delta)` in any state leaves every
key other than the name as it was in the live map, present with the same value or
absent, sends no snapshot result, and changes neither the counter struct nor the log. -/
theorem stat_frame (s : State) (name k : String) (delta : Int) (hk : k ≠ name) :
    mapFind (start s [statRecord name delta]).statsMap k = mapFind s.statsMap k
    ∧ (start s [statRecord name delta]).results = s.results
    ∧ (start s [statRecord name delta]).c = s.c
    ∧ (start s [statRecord name delta]).log = s.log := by
  rw [start_stat]
  refine ⟨?_, rfl, rfl, rfl⟩
  simp only [State.statsMap]
  rw [Heap.read_write]
  by_cases ha : s.c.stats < s.heap.length
  · have hne : ¬ name = k := fun e => hk e.symm
    simp [ha, mapFind_mapSet, hne, State.statsMap]
  · simp [ha]

/-- Witness of C15: an increment of req.a beside the entry db.c. -/
theorem stat_frame_witness :
    "db.c" ≠ "req.a"
    ∧ mapFind (start (start NewCounter [statRecord "db.c" 3]) [statRecord "req.a" 1]).statsMap
        "db.c" = some 3
    ∧ mapFind (start (start NewCounter [statRecord "db.c" 3]) [statRecord "req.a" 1]).statsMap
        "db.c" = mapFind (start NewCounter [statRecord "db.c" 3]).statsMap "db.c" :=
  ⟨by decide, by decide,
    (stat_frame (start NewCounter [statRecord "db.c" 3]) "req.a" "db.c" 1 (by decide)).1⟩

end util
